import Mathlib

/-
Verification of the cachemanager-go repository: a tiered caching coordinator
(cache_manager.go) over pluggable backends, and the bounded in-process
eviction store (backend/inmemory/inmemory.go).

Shallow embedding conventions:
* Go time.Time instants and time.Duration ttls are modelled as Nat ticks;
  time.Now() is passed explicitly as a `now` argument to each operation.
  Go's t1.After(t2) is `t1 > t2`.
* Go map[string]V is modelled as an association list `List (String × V)`
  with distinct keys maintained by the insert operation; assignment
  determinizes iteration order to insertion order (Go map iteration order
  is unspecified, and no property proved here depends on it).
* Go `any` values are a type parameter α.  A backend Get returning
  (value, found) is merged into `Option α` (`some v` iff found=true with
  value v; Go returns nil when found=false, and no code path reads the
  value when found is false).
* container/list.List of ageEntry is a `List AgeEntry`; PushBack appends,
  Front is head, Remove of the element indexed by ageElements[key] removes
  the (unique) element with that key.  ageElements, the map from key to
  its list element, is modelled by the list of keys that have an element;
  it always carries exactly the keys of ageList because the Go code only
  ever mutates the two together.
* Errors (the Go `error` type) are a type parameter ε where a backend can
  fail, and `Option` marks presence of an error.
-/

namespace CacheMgr

/-! ## Go map[string]β as an association list -/

/-- Lookup in a Go map: value of the first (unique) pair with this key. -/
def mapLookup (m : List (String × β)) (k : String) : Option β :=
  (m.find? (fun p => p.1 == k)).map (fun p => p.2)

/-- Go `delete(m, k)`: remove the pair with this key. -/
def mapErase (m : List (String × β)) (k : String) : List (String × β) :=
  m.filter (fun p => p.1 != k)

/-- Go `m[k] = v`: replace any existing pair for the key, keyset gains k. -/
def mapInsert (m : List (String × β)) (k : String) (v : β) : List (String × β) :=
  mapErase m k ++ [(k, v)]

/-! ## The in-memory eviction store (backend/inmemory/inmemory.go) -/

/-- Go struct ageEntry: one record of the secondary age-ordering list. -/
structure AgeEntry where
  key : String
  createdAt : Nat
deriving DecidableEq, Repr

/-- Go struct cacheEntry: a stored value with its expiry and creation time. -/
structure CacheEntry (α : Type) where
  value : α
  expiresAt : Nat
  createdAt : Nat
deriving DecidableEq, Repr

/-- Go struct Cache: primary data map, age list, age-element index,
capacity bound, sweep interval, and the stopCleanup channel (modelled by
whether it has been closed).  The mutex and the ticker runtime object are
not data. -/
structure Cache (α : Type) where
  data : List (String × CacheEntry α)
  ageList : List AgeEntry
  ageElements : List String
  cleanupInterval : Nat
  maxEntries : Int
  stopClosed : Bool
deriving DecidableEq, Repr

/-- Functional options are Cache → Cache, as in the Go Option type. -/
def WithCleanupInterval (interval : Nat) : Cache α → Cache α :=
  fun c => if 0 < interval then { c with cleanupInterval := interval } else c

/-- WithMaxEntries sets the capacity bound; -1 documents unlimited. -/
def WithMaxEntries (max : Int) : Cache α → Cache α :=
  fun c => { c with maxEntries := max }

/-- NewInMemoryCache: defaults (5 minute sweep, unbounded, stop channel
open), then the options applied in order.  startCleanup's goroutine is
modelled by Cache.sweepStep below. -/
def NewInMemoryCache (opts : List (Cache α → Cache α)) : Cache α :=
  opts.foldl (fun c opt => opt c)
    { data := [], ageList := [], ageElements := [],
      cleanupInterval := 5 * 60, maxEntries := -1, stopClosed := false }

/-- Cache.Get: not-found on absent key; on an expired key, delete from the
data map (only!) and report not-found; otherwise the live value.  The Go
error result is constantly nil and is omitted. -/
def Cache.Get (c : Cache α) (now : Nat) (key : String) : Option α × Cache α :=
  match mapLookup c.data key with
  | none => (none, c)
  | some entry =>
    if now > entry.expiresAt then
      (none, { c with data := mapErase c.data key })
    else
      (some entry.value, c)

/-- The first half of Cache.Set: refresh the age record if the key already
has one; else if at capacity, evict the front (oldest) age record and its
map entry. -/
def Cache.setEvict (c : Cache α) (key : String) : Cache α :=
  if c.ageElements.contains key then
    { c with ageList := c.ageList.eraseP (fun a => a.key == key),
             ageElements := c.ageElements.erase key }
  else if 0 < c.maxEntries ∧ c.maxEntries ≤ (c.data.length : Int) then
    match c.ageList.head? with
    | some oldest =>
      { c with ageList := c.ageList.tail,
               ageElements := c.ageElements.erase oldest.key,
               data := mapErase c.data oldest.key }
    | none => c
  else c

/-- Cache.Set: the age-refresh / capacity-eviction step, then store the
entry and push a fresh age record. -/
def Cache.Set (c : Cache α) (now : Nat) (key : String) (value : α) (ttl : Nat) :
    Cache α :=
  let c1 := c.setEvict key
  { c1 with
    data := mapInsert c1.data key ⟨value, now + ttl, now⟩,
    ageList := c1.ageList ++ [⟨key, now⟩],
    ageElements := c1.ageElements ++ [key] }

/-- Cache.Delete: drop the map entry, and the age record if present. -/
def Cache.Delete (c : Cache α) (key : String) : Cache α :=
  let c1 := { c with data := mapErase c.data key }
  if c1.ageElements.contains key then
    { c1 with ageList := c1.ageList.eraseP (fun a => a.key == key),
              ageElements := c1.ageElements.erase key }
  else c1

/-- Go runtime faults observable in this model. -/
inductive GoRuntimeFault where
  | closeOfClosedChannel
deriving DecidableEq, Repr

/-- Cache.Stop is close(c.stopCleanup): the Go runtime faults when a
channel is closed a second time; otherwise the channel becomes closed. -/
def Cache.Stop (c : Cache α) : Except GoRuntimeFault (Cache α) :=
  if c.stopClosed then .error .closeOfClosedChannel
  else .ok { c with stopClosed := true }

/-- One bubble pass of cleanup's nested sort by createdAt. -/
def bubblePass : List (String × Nat) → List (String × Nat)
  | [] => []
  | [x] => [x]
  | x :: y :: rest =>
    if y.2 < x.2 then y :: bubblePass (x :: rest) else x :: bubblePass (y :: rest)
termination_by l => l.length

/-- The outer loop of cleanup's bubble sort: length-many passes. -/
def bubbleAux : Nat → List (String × Nat) → List (String × Nat)
  | 0, l => l
  | n + 1, l => bubbleAux n (bubblePass l)

/-- cleanup's in-place bubble sort of (key, createdAt) pairs. -/
def bubbleSortByAge (l : List (String × Nat)) : List (String × Nat) :=
  bubbleAux l.length l

/-- Cache.cleanup (the periodic sweep): delete every expired key from the
data map; then, when over a positive capacity bound, sort live entries by
createdAt and delete the oldest overflow from the data map.  Neither phase
touches ageList or ageElements. -/
def Cache.cleanup (c : Cache α) (now : Nat) : Cache α :=
  let expiredKeys :=
    (c.data.filter (fun p => decide (now > p.2.expiresAt))).map (fun p => p.1)
  let data1 := expiredKeys.foldl (fun m k => mapErase m k) c.data
  if 0 < c.maxEntries ∧ c.maxEntries < (data1.length : Int) then
    let entries := data1.map (fun p => (p.1, p.2.createdAt))
    let sorted := bubbleSortByAge entries
    let numToRemove := data1.length - c.maxEntries.toNat
    let toRemove := (sorted.take numToRemove).map (fun p => p.1)
    { c with data := toRemove.foldl (fun m k => mapErase m k) data1 }
  else
    { c with data := data1 }

/-- One iteration of the startCleanup goroutine loop: once stopCleanup is
closed the select returns (none = loop terminated, ticker stopped);
otherwise the ticker fires and the sweep runs. -/
def Cache.sweepStep (c : Cache α) (now : Nat) : Option (Cache α) :=
  if c.stopClosed then none else some (c.cleanup now)

/-- The spec's lockstep invariant over the store: the age list carries
exactly the keys of the primary map (one record each, data keys distinct),
and the age-element index carries exactly the age list's keys. -/
def lockstep (c : Cache α) : Prop :=
  c.ageList.map AgeEntry.key = c.data.map Prod.fst ∧
  c.ageElements = c.ageList.map AgeEntry.key ∧
  (c.data.map Prod.fst).Nodup

instance (c : Cache α) : Decidable (lockstep c) := by
  unfold lockstep; infer_instance

/-- The age list is sorted by creation time (true of every store reached
with a monotone clock: records are appended with the current time). -/
def agesSorted (c : Cache α) : Prop :=
  c.ageList.Pairwise (fun a b => a.createdAt ≤ b.createdAt)

instance (c : Cache α) : Decidable (agesSorted c) := by
  unfold agesSorted; infer_instance

/-! ## Backends as seen by the coordinator (cache_manager.go)

The coordinator is written against the CacheBackend interface.  A backend
instance is modelled as the repository's own in-memory store together with
optional injected errors (standing for a failing backend, e.g. the redis
adapter when its client call fails — a failed call leaves the remote store
unchanged), plus logs of the Set/Delete invocations received, used to
state that an operation was attempted on a tier. -/

/-- One CacheBackend instance. -/
structure Backend (α ε : Type) where
  store : Cache α
  failGet : Option ε
  failSet : Option ε
  failDelete : Option ε
  setCalls : List (String × α × Nat)
  deleteCalls : List String
deriving DecidableEq, Repr

/-- Backend Get: (value, found) merged into Option, plus the error slot. -/
def Backend.Get (b : Backend α ε) (now : Nat) (key : String) :
    (Option α × Option ε) × Backend α ε :=
  match b.failGet with
  | some e => ((none, some e), b)
  | none =>
    let r := b.store.Get now key
    ((r.1, none), { b with store := r.2 })

/-- Backend Set: the invocation is always received (logged); on success the
store is updated. -/
def Backend.Set (b : Backend α ε) (now : Nat) (key : String) (value : α)
    (ttl : Nat) : Backend α ε × Option ε :=
  match b.failSet with
  | some e => ({ b with setCalls := b.setCalls ++ [(key, value, ttl)] }, some e)
  | none =>
    ({ b with store := b.store.Set now key value ttl,
              setCalls := b.setCalls ++ [(key, value, ttl)] }, none)

/-- Backend Delete: the invocation is always received (logged); on success
the store is updated. -/
def Backend.Delete (b : Backend α ε) (key : String) : Backend α ε × Option ε :=
  match b.failDelete with
  | some e => ({ b with deleteCalls := b.deleteCalls ++ [key] }, some e)
  | none =>
    ({ b with store := b.store.Delete key,
              deleteCalls := b.deleteCalls ++ [key] }, none)

/-- Go struct CacheConfig: one tier, a backend with its configured TTL. -/
structure CacheConfig (α ε : Type) where
  backend : Backend α ε
  ttl : Nat
deriving DecidableEq, Repr

/-- Go struct CacheManager: the ordered tier list (position = index). -/
structure CacheManager (α ε : Type) where
  backends : List (CacheConfig α ε)
deriving DecidableEq, Repr

/-- Errors returned by CacheManager.Get: the wrapped backend error
(fmt.Errorf with the tier index) or the generic not-found error. -/
inductive CMGetErr (ε : Type) where
  | backendErr (i : Nat) (e : ε)
  | notFound (key : String)
deriving DecidableEq, Repr

/-- The loop of CacheManager.Get: try each tier in order; an error is
recorded (replacing any earlier one) and iteration continues; the first
hit returns (value, hit index) at once, tiers beyond it untouched; when
the tiers run out, the recorded error if any, else not-found.  The hit
index is returned because the Go code hands it (with the value) to the
detached populatePreviousBackends task. -/
def getFrom (now : Nat) (key : String) :
    List (CacheConfig α ε) → Nat → Option (Nat × ε) →
    Except (CMGetErr ε) (α × Nat) × List (CacheConfig α ε)
  | [], _, lastErr =>
    (match lastErr with
     | some (i, e) => .error (.backendErr i e)
     | none => .error (.notFound key), [])
  | cfg :: rest, i, lastErr =>
    let r := cfg.backend.Get now key
    let cfg1 := { cfg with backend := r.2 }
    match r.1.2 with
    | some e =>
      let t := getFrom now key rest (i + 1) (some (i, e))
      (t.1, cfg1 :: t.2)
    | none =>
      match r.1.1 with
      | some v => (.ok (v, i), cfg1 :: rest)
      | none =>
        let t := getFrom now key rest (i + 1) lastErr
        (t.1, cfg1 :: t.2)

/-- CacheManager.Get retrieves a value from the cache chain. -/
def CacheManager.Get (cm : CacheManager α ε) (now : Nat) (key : String) :
    Except (CMGetErr ε) (α × Nat) × CacheManager α ε :=
  let t := getFrom now key cm.backends 0 none
  (t.1, ⟨t.2⟩)

/-- The loop of CacheManager.Set: write every tier with its own TTL,
remembering the last (tier index, error). -/
def setGo (now : Nat) (key : String) (value : α) :
    List (CacheConfig α ε) → Nat → Option (Nat × ε) →
    List (CacheConfig α ε) × Option (Nat × ε)
  | [], _, lastErr => ([], lastErr)
  | cfg :: rest, i, lastErr =>
    let r := cfg.backend.Set now key value cfg.ttl
    let newLast := match r.2 with
      | some e => some (i, e)
      | none => lastErr
    let t := setGo now key value rest (i + 1) newLast
    ({ cfg with backend := r.1 } :: t.1, t.2)

/-- CacheManager.Set stores a value in all cache backends. -/
def CacheManager.Set (cm : CacheManager α ε) (now : Nat) (key : String)
    (value : α) : CacheManager α ε × Option (Nat × ε) :=
  let t := setGo now key value cm.backends 0 none
  (⟨t.1⟩, t.2)

/-- The loop of CacheManager.Delete: delete from every tier, remembering
the last (tier index, error). -/
def deleteGo (key : String) :
    List (CacheConfig α ε) → Nat → Option (Nat × ε) →
    List (CacheConfig α ε) × Option (Nat × ε)
  | [], _, lastErr => ([], lastErr)
  | cfg :: rest, i, lastErr =>
    let r := cfg.backend.Delete key
    let newLast := match r.2 with
      | some e => some (i, e)
      | none => lastErr
    let t := deleteGo key rest (i + 1) newLast
    ({ cfg with backend := r.1 } :: t.1, t.2)

/-- CacheManager.Delete removes a value from all cache backends. -/
def CacheManager.Delete (cm : CacheManager α ε) (key : String) :
    CacheManager α ε × Option (Nat × ε) :=
  let t := deleteGo key cm.backends 0 none
  (⟨t.1⟩, t.2)

/-- The loop of populatePreviousBackends: every tier with index below the
hit index receives a Set of the found value at that tier's own TTL, the
result discarded; other tiers are untouched. -/
def populateGo (now : Nat) (key : String) (value : α) (hitIndex : Nat) :
    List (CacheConfig α ε) → Nat → List (CacheConfig α ε)
  | [], _ => []
  | cfg :: rest, i =>
    (if i < hitIndex then
      { cfg with backend := (cfg.backend.Set now key value cfg.ttl).1 }
     else cfg) :: populateGo now key value hitIndex rest (i + 1)

/-- CacheManager.populatePreviousBackends (the detached backfill task). -/
def CacheManager.populatePreviousBackends (cm : CacheManager α ε) (now : Nat)
    (key : String) (value : α) (hitIndex : Nat) : CacheManager α ε :=
  ⟨populateGo now key value hitIndex cm.backends 0⟩

/-- The inner loop of handleInvalidation: on one received key, issue a
Delete (result discarded) against every tier other than the source. -/
def fanoutGo (key : String) (src : Nat) :
    List (CacheConfig α ε) → Nat → List (CacheConfig α ε)
  | [], _ => []
  | cfg :: rest, i =>
    (if i ≠ src then { cfg with backend := (cfg.backend.Delete key).1 }
     else cfg) :: fanoutGo key src rest (i + 1)

/-- CacheManager.handleInvalidation consuming the feed of tier src: the
events list is the sequence of keys received on the invalidation channel,
processed in order. -/
def CacheManager.handleInvalidation (cm : CacheManager α ε)
    (events : List String) (src : Nat) : CacheManager α ε :=
  ⟨events.foldl (fun bs k => fanoutGo k src bs 0) cm.backends⟩

/-! ## Derived per-tier observations used to state the coordinator claims -/

/-- What one tier's Get reports for a key, before any coordinator call. -/
def hitValue (cfg : CacheConfig α ε) (now : Nat) (key : String) : Option α :=
  match (cfg.backend.Get now key).1.2 with
  | some _ => none
  | none => (cfg.backend.Get now key).1.1

/-- The error one tier's Get reports, if any. -/
def errValue (cfg : CacheConfig α ε) (now : Nat) (key : String) : Option ε :=
  (cfg.backend.Get now key).1.2

/-- Index and value of the first tier (from position i0) reporting a hit. -/
def firstHit (now : Nat) (key : String) :
    List (CacheConfig α ε) → Nat → Option (Nat × α)
  | [], _ => none
  | cfg :: rest, i =>
    match hitValue cfg now key with
    | some v => some (i, v)
    | none => firstHit now key rest (i + 1)

/-- The (tier index, error) pairs of the erring tiers, in position order. -/
def tierErrors (now : Nat) (key : String) :
    List (CacheConfig α ε) → Nat → List (Nat × ε)
  | [], _ => []
  | cfg :: rest, i =>
    match errValue cfg now key with
    | some e => (i, e) :: tierErrors now key rest (i + 1)
    | none => tierErrors now key rest (i + 1)

/-- The (tier index, error) pairs of the tiers whose Set fails. -/
def setFailures : List (CacheConfig α ε) → Nat → List (Nat × ε)
  | [], _ => []
  | cfg :: rest, i =>
    match cfg.backend.failSet with
    | some e => (i, e) :: setFailures rest (i + 1)
    | none => setFailures rest (i + 1)

/-- The (tier index, error) pairs of the tiers whose Delete fails. -/
def deleteFailures : List (CacheConfig α ε) → Nat → List (Nat × ε)
  | [], _ => []
  | cfg :: rest, i =>
    match cfg.backend.failDelete with
    | some e => (i, e) :: deleteFailures rest (i + 1)
    | none => deleteFailures rest (i + 1)

/-- Sequential distinct-key insertion driver for the unbounded-growth
statement. -/
def setMany (c : Cache α) (now : Nat) (ks : List String) (v : α) (ttl : Nat) :
    Cache α :=
  ks.foldl (fun c k => c.Set now k v ttl) c

/-- How the Go loops accumulate lastErr: each element overwrites it. -/
def lastOpt : List γ → Option γ → Option γ
  | [], acc => acc
  | x :: rest, _ => lastOpt rest (some x)

/-! ## Lemmas about the map model -/

lemma find?_mapErase_self (m : List (String × β)) (k : String) :
    (mapErase m k).find? (fun p => p.1 == k) = none := by
  apply List.find?_eq_none.mpr
  intro p hp
  have h := List.mem_filter.mp hp
  simpa using (by simpa using h.2 : p.1 ≠ k)

lemma mapLookup_mapInsert_self (m : List (String × β)) (k : String) (v : β) :
    mapLookup (mapInsert m k v) k = some v := by
  unfold mapLookup mapInsert
  rw [List.find?_append, find?_mapErase_self]
  simp

lemma mapLookup_mapErase_ne (m : List (String × β)) {k k0 : String}
    (h : k ≠ k0) : mapLookup (mapErase m k0) k = mapLookup m k := by
  induction m with
  | nil => rfl
  | cons p rest ih =>
    by_cases hp : p.1 = k0
    · have h1 : mapErase (p :: rest) k0 = mapErase rest k0 := by
        simp [mapErase, List.filter_cons, hp]
      have hk : ¬ (p.1 == k) = true := by
        simp only [beq_iff_eq, hp]
        exact Ne.symm h
      have h2 : mapLookup (p :: rest) k = mapLookup rest k := by
        unfold mapLookup
        rw [List.find?_cons_of_neg (p := fun (q : String × β) => q.1 == k) _ hk]
      rw [h1, h2, ih]
    · have h1 : mapErase (p :: rest) k0 = p :: mapErase rest k0 := by
        simp [mapErase, List.filter_cons, hp]
      rw [h1]
      by_cases hk : p.1 = k
      · have hpos : (p.1 == k) = true := by simp [hk]
        unfold mapLookup
        rw [List.find?_cons_of_pos (p := fun (q : String × β) => q.1 == k) _ hpos,
            List.find?_cons_of_pos (p := fun (q : String × β) => q.1 == k) _ hpos]
      · have hneg : ¬ (p.1 == k) = true := by simp [hk]
        unfold mapLookup
        rw [List.find?_cons_of_neg (p := fun (q : String × β) => q.1 == k) _ hneg,
            List.find?_cons_of_neg (p := fun (q : String × β) => q.1 == k) _ hneg]
        exact ih

lemma keys_mapErase (m : List (String × β)) (k : String) :
    (mapErase m k).map Prod.fst = (m.map Prod.fst).filter (fun s => s != k) := by
  induction m with
  | nil => rfl
  | cons p rest ih =>
    by_cases hp : p.1 = k <;>
      simp [mapErase, List.filter_cons, hp, ih] <;> simp [mapErase] at ih <;>
      exact ih

lemma mapErase_of_not_mem {m : List (String × β)} {k : String}
    (h : k ∉ m.map Prod.fst) : mapErase m k = m := by
  apply List.filter_eq_self.mpr
  intro p hp
  have : p.1 ≠ k := by
    intro he
    exact h (he ▸ List.mem_map_of_mem Prod.fst hp)
  simpa using this

lemma mapLookup_of_mem_nodup {m : List (String × β)} {k : String} {v : β}
    (hnd : (m.map Prod.fst).Nodup) (hm : (k, v) ∈ m) :
    mapLookup m k = some v := by
  induction m with
  | nil => cases hm
  | cons p rest ih =>
    rcases List.mem_cons.mp hm with he | hrest
    · have h1 : (p.1 == k) = true := by simp [← he]
      have h2 : p.2 = v := by rw [← he]
      unfold mapLookup
      rw [List.find?_cons_of_pos (p := fun (q : String × β) => q.1 == k) _ h1]
      simp [h2]
    · have hk : p.1 ≠ k := by
        intro he
        have hmem : k ∈ rest.map Prod.fst := by
          exact List.mem_map_of_mem Prod.fst hrest
        exact (List.nodup_cons.mp hnd).1 (he ▸ hmem)
      have hk2 : ¬ (p.1 == k) = true := by simp [hk]
      have hrec := ih (List.nodup_cons.mp hnd).2 hrest
      unfold mapLookup
      rw [List.find?_cons_of_neg (p := fun (q : String × β) => q.1 == k) _ hk2]
      exact hrec

lemma keys_length (m : List (String × β)) :
    (m.map Prod.fst).length = m.length := List.length_map m Prod.fst

lemma foldl_mapErase_lookup {k : String} :
    ∀ (ks : List String) (m : List (String × β)), k ∉ ks →
      mapLookup (ks.foldl (fun m k2 => mapErase m k2) m) k = mapLookup m k := by
  intro ks
  induction ks with
  | nil => intro m _; rfl
  | cons k0 rest ih =>
    intro m hk
    have h1 : k ≠ k0 := fun he => hk (he ▸ List.mem_cons_self k0 rest)
    have h2 : k ∉ rest := fun hm => hk (List.mem_cons_of_mem k0 hm)
    simpa [List.foldl_cons, ih _ h2] using mapLookup_mapErase_ne m h1

/-! ## Lemmas about Cache.Set -/

lemma Cache.Set_data (c : Cache α) (now : Nat) (key : String) (value : α)
    (ttl : Nat) :
    (c.Set now key value ttl).data =
      mapInsert (c.setEvict key).data key ⟨value, now + ttl, now⟩ := rfl

lemma Cache.Set_maxEntries (c : Cache α) (now : Nat) (key : String)
    (value : α) (ttl : Nat) :
    (c.Set now key value ttl).maxEntries = c.maxEntries := by
  show (c.setEvict key).maxEntries = c.maxEntries
  unfold Cache.setEvict
  split
  · rfl
  · split
    · split <;> rfl
    · rfl

lemma Cache.setEvict_data_of_nonpos {c : Cache α} (h : c.maxEntries ≤ 0)
    (key : String) : (c.setEvict key).data = c.data := by
  have hguard : ¬ (0 < c.maxEntries ∧ c.maxEntries ≤ (c.data.length : Int)) :=
    fun hc => absurd hc.1 (not_lt.mpr h)
  by_cases hc : key ∈ c.ageElements
  · simp [Cache.setEvict, hc]
  · simp [Cache.setEvict, hc, hguard]

lemma Cache.Set_keys_of_nonpos {c : Cache α} (h : c.maxEntries ≤ 0)
    {key : String} (hk : key ∉ c.data.map Prod.fst) (now : Nat) (value : α)
    (ttl : Nat) :
    (c.Set now key value ttl).data.map Prod.fst =
      c.data.map Prod.fst ++ [key] := by
  rw [Cache.Set_data, mapInsert, Cache.setEvict_data_of_nonpos h,
      mapErase_of_not_mem hk]
  simp

lemma Cache.Get_after_Set_fst (c : Cache α) (t0 tr : Nat) (key : String)
    (v : α) (ttl : Nat) :
    ((c.Set t0 key v ttl).Get tr key).1 =
      if tr > t0 + ttl then none else some v := by
  by_cases hlt : t0 + ttl < tr
  · simp [Cache.Get, Cache.Set_data, mapLookup_mapInsert_self, hlt]
  · simp [Cache.Get, Cache.Set_data, mapLookup_mapInsert_self, hlt]

lemma setMany_length_of_nonpos (now : Nat) (v : α) (ttl : Nat) :
    ∀ (ks : List String) (c : Cache α), c.maxEntries ≤ 0 → ks.Nodup →
      (∀ k ∈ ks, k ∉ c.data.map Prod.fst) →
      (setMany c now ks v ttl).data.length = c.data.length + ks.length := by
  intro ks
  induction ks with
  | nil => intro c _ _ _; simp [setMany]
  | cons k rest ih =>
    intro c hmax hnd hfresh
    have hk : k ∉ c.data.map Prod.fst := hfresh k (List.mem_cons_self k rest)
    have hkeys := Cache.Set_keys_of_nonpos hmax hk now v ttl
    have hmax2 : (c.Set now k v ttl).maxEntries ≤ 0 := by
      rw [Cache.Set_maxEntries]; exact hmax
    have hfresh2 : ∀ k2 ∈ rest, k2 ∉ (c.Set now k v ttl).data.map Prod.fst := by
      intro k2 hk2 hmem
      rw [hkeys] at hmem
      rcases List.mem_append.mp hmem with hin | hin
      · exact hfresh k2 (List.mem_cons_of_mem k hk2) hin
      · have : k2 = k := by simpa using hin
        exact (List.nodup_cons.mp hnd).1 (this ▸ hk2)
    have hlen : (c.Set now k v ttl).data.length = c.data.length + 1 := by
      have := congrArg List.length hkeys
      simpa using this
    have hrec := ih (c.Set now k v ttl) hmax2 (List.nodup_cons.mp hnd).2 hfresh2
    calc (setMany c now (k :: rest) v ttl).data.length
        = (setMany (c.Set now k v ttl) now rest v ttl).data.length := rfl
      _ = (c.Set now k v ttl).data.length + rest.length := hrec
      _ = c.data.length + (k :: rest).length := by rw [hlen]; simp; omega

/-! ## C1: the lockstep invariant between the data map and the age records

The claim asserts the invariant holds after every operation sequence.  The
code refutes it: Cache.Get on an expired key deletes the map entry but not
the AgeRecord (Cache.cleanup likewise only deletes map entries), exactly
what the spec calls a bug. -/

/-- C1 (code_bug evidence): starting from a fresh store, Set "a" with ttl 1
at time 0 and Get "a" at time 2.  Before the read the lockstep invariant
holds; after the read the primary map is empty while the AgeRecord for
"a" is still present, so the invariant is broken. -/
theorem expired_get_breaks_lockstep :
    lockstep ((NewInMemoryCache [] : Cache Nat).Set 0 "a" 7 1) ∧
    ((((NewInMemoryCache [] : Cache Nat).Set 0 "a" 7 1).Get 2 "a").2).data = [] ∧
    ((((NewInMemoryCache [] : Cache Nat).Set 0 "a" 7 1).Get 2 "a").2).ageList.map
      AgeEntry.key = ["a"] ∧
    ¬ lockstep ((((NewInMemoryCache [] : Cache Nat).Set 0 "a" 7 1).Get 2 "a").2) := by
  decide

/-- C5: Get returns not-found on an absent or expired key and the stored
value otherwise; the expired read removes the entry from the primary map;
an entry set with ttl t is retrievable before set-time + t and not after. -/
theorem get_expiry_semantics (c : Cache α) (now : Nat) (key : String) :
    (mapLookup c.data key = none → c.Get now key = (none, c)) ∧
    (∀ e, mapLookup c.data key = some e → now > e.expiresAt →
        c.Get now key = (none, { c with data := mapErase c.data key })) ∧
    (∀ e, mapLookup c.data key = some e → ¬ now > e.expiresAt →
        c.Get now key = (some e.value, c)) ∧
    (∀ t0 tr (v : α) ttl, tr < t0 + ttl →
        ((c.Set t0 key v ttl).Get tr key).1 = some v) ∧
    (∀ t0 tr (v : α) ttl, t0 + ttl < tr →
        ((c.Set t0 key v ttl).Get tr key).1 = none) := by
  refine ⟨?_, ?_, ?_, ?_, ?_⟩
  · intro h; simp [Cache.Get, h]
  · intro e he hexp; simp [Cache.Get, he, hexp]
  · intro e he hexp; simp [Cache.Get, he, hexp]
  · intro t0 tr v ttl hlt
    rw [Cache.Get_after_Set_fst, if_neg (by omega)]
  · intro t0 tr v ttl hlt
    rw [Cache.Get_after_Set_fst, if_pos (by omega)]

/-- C5 witness: at ttl 2 set at time 0, the value is there at time 1 and
gone at time 3. -/
theorem get_expiry_semantics_witness :
    ((1 : Nat) < 0 + 2 ∧
      ((((NewInMemoryCache [] : Cache Nat).Set 0 "a" 7 2).Get 1 "a").1 = some 7)) ∧
    ((0 : Nat) + 2 < 3 ∧
      ((((NewInMemoryCache [] : Cache Nat).Set 0 "a" 7 2).Get 3 "a").1 = none)) :=
  ⟨⟨by decide, (get_expiry_semantics (NewInMemoryCache []) 1 "a").2.2.2.1 0 1 7 2
      (by decide)⟩,
   ⟨by decide, (get_expiry_semantics (NewInMemoryCache []) 3 "a").2.2.2.2 0 3 7 2
      (by decide)⟩⟩

/-- C9: on a store whose stop channel is still open, Stop succeeds and the
background sweep loop terminates; a second Stop on the resulting store is
the Go runtime fault for closing a closed channel, not a no-op. -/
theorem stop_is_single_use (c : Cache α) (h : c.stopClosed = false) :
    ∃ c2, c.Stop = .ok c2 ∧ (∀ now, c2.sweepStep now = none) ∧
      c2.Stop = .error GoRuntimeFault.closeOfClosedChannel := by
  refine ⟨{ c with stopClosed := true }, ?_, ?_, ?_⟩
  · simp [Cache.Stop, h]
  · intro now; simp [Cache.sweepStep]
  · simp [Cache.Stop]

/-- C9 witness: a freshly constructed store. -/
theorem stop_is_single_use_witness :
    (NewInMemoryCache ([] : List (Cache Nat → Cache Nat))).stopClosed = false ∧
    ∃ c2, (NewInMemoryCache ([] : List (Cache Nat → Cache Nat))).Stop = .ok c2 ∧
      (∀ now, c2.sweepStep now = none) ∧
      c2.Stop = .error GoRuntimeFault.closeOfClosedChannel :=
  ⟨rfl, stop_is_single_use _ rfl⟩

/-- C10: with maxEntries ≤ 0 (including the undocumented 0, not only the
documented -1) no capacity eviction happens: a Set of a fresh key always
grows the map by one, the sweep keeps every unexpired entry, and distinct
fresh-key inserts grow the store without bound. -/
theorem nonpositive_max_never_evicts (c : Cache α) (hmax : c.maxEntries ≤ 0) :
    (∀ now k (v : α) ttl, k ∉ c.data.map Prod.fst →
        (c.Set now k v ttl).data.length = c.data.length + 1) ∧
    (∀ now k e, (c.data.map Prod.fst).Nodup → mapLookup c.data k = some e →
        ¬ now > e.expiresAt → mapLookup (c.cleanup now).data k = some e) ∧
    (∀ now (v : α) ttl ks, ks.Nodup → (∀ k ∈ ks, k ∉ c.data.map Prod.fst) →
        (setMany c now ks v ttl).data.length = c.data.length + ks.length) := by
  refine ⟨?_, ?_, ?_⟩
  · intro now k v ttl hk
    have := congrArg List.length (Cache.Set_keys_of_nonpos hmax hk now v ttl)
    simpa using this
  · intro now k e hnd hlook hexp
    have hdata : (c.cleanup now).data =
        ((c.data.filter (fun p => decide (now > p.2.expiresAt))).map
          (fun p => p.1)).foldl (fun m k2 => mapErase m k2) c.data := by
      simp only [Cache.cleanup]
      rw [if_neg (fun hc => absurd hc.1 (not_lt.mpr hmax))]
    rw [hdata]
    have hnotin : k ∉ (c.data.filter
        (fun p => decide (now > p.2.expiresAt))).map (fun p => p.1) := by
      intro hmem
      obtain ⟨a, ha, hak⟩ := List.mem_map.mp hmem
      obtain ⟨a1, a2⟩ := a
      obtain ⟨hmemd, hexpa⟩ := List.mem_filter.mp ha
      simp only at hak
      subst hak
      have := mapLookup_of_mem_nodup hnd hmemd
      rw [hlook] at this
      have he : a2 = e := by injection this with h2; exact h2.symm
      subst he
      exact hexp (by simpa using hexpa)
    rw [foldl_mapErase_lookup _ _ hnotin, hlook]
  · intro now v ttl ks hnd hfresh
    exact setMany_length_of_nonpos now v ttl ks c hmax hnd hfresh

/-- C4: on a store satisfying the lockstep invariant with an age list
sorted by creation time (every store reached with a monotone clock), a Set
of a new key at capacity evicts exactly the entry whose AgeRecord is
oldest by creation time, then inserts the key; and concretely with
maxEntries = 2 inserting "a","b","c" with no reads in between leaves
exactly "b" and "c" retrievable. -/
theorem set_at_capacity_evicts_oldest (c : Cache α) (now : Nat) (k : String)
    (v : α) (ttl : Nat) (hlock : lockstep c) (hsort : agesSorted c)
    (hnew : c.ageElements.contains k = false) (hpos : 0 < c.maxEntries)
    (hfull : c.maxEntries ≤ (c.data.length : Int)) :
    (∃ oldest, c.ageList.head? = some oldest ∧
        oldest.key ∈ c.data.map Prod.fst ∧
        (∀ b ∈ c.ageList, oldest.createdAt ≤ b.createdAt) ∧
        (c.Set now k v ttl).data.map Prod.fst =
          (c.data.map Prod.fst).filter (fun s => s != oldest.key) ++ [k]) ∧
    (((((NewInMemoryCache [WithMaxEntries 2] : Cache Nat).Set 0 "a" 7
          100).Set 1 "b" 8 100).Set 2 "c" 9 100).data.map Prod.fst =
        ["b", "c"] ∧
      ((((((NewInMemoryCache [WithMaxEntries 2] : Cache Nat).Set 0 "a" 7
          100).Set 1 "b" 8 100).Set 2 "c" 9 100).Get 3 "a").1 = none) ∧
      ((((((NewInMemoryCache [WithMaxEntries 2] : Cache Nat).Set 0 "a" 7
          100).Set 1 "b" 8 100).Set 2 "c" 9 100).Get 3 "b").1 = some 8) ∧
      ((((((NewInMemoryCache [WithMaxEntries 2] : Cache Nat).Set 0 "a" 7
          100).Set 1 "b" 8 100).Set 2 "c" 9 100).Get 3 "c").1 = some 9)) := by
  obtain ⟨hA, hE, hN⟩ := hlock
  have hmem : k ∉ c.ageElements := by simpa using hnew
  have hlen : 1 ≤ c.data.length := by omega
  have hAne : c.ageList ≠ [] := by
    intro h0
    rw [h0] at hA
    have : c.data = [] := by
      have := hA.symm
      simpa [List.map_eq_nil_iff] using this
    rw [this] at hlen
    simp at hlen
  obtain ⟨oldest, tl, hcons⟩ : ∃ a l, c.ageList = a :: l := by
    cases hL : c.ageList with
    | nil => exact absurd hL hAne
    | cons a l => exact ⟨a, l, rfl⟩
  have hknotin : k ∉ c.data.map Prod.fst := by
    rw [← hA]
    rw [hE] at hmem
    exact hmem
  have hev : (c.setEvict k).data = mapErase c.data oldest.key := by
    simp only [Cache.setEvict, hnew, Bool.false_eq_true, if_false,
      if_pos (And.intro hpos hfull), hcons, List.head?_cons]
  have hkerase : k ∉ (mapErase c.data oldest.key).map Prod.fst := by
    rw [keys_mapErase]
    intro hmem2
    exact hknotin (List.mem_filter.mp hmem2).1
  refine ⟨⟨oldest, ?_, ?_, ?_, ?_⟩, by decide⟩
  · rw [hcons]; rfl
  · rw [← hA, hcons]
    exact List.mem_map_of_mem AgeEntry.key (List.mem_cons_self oldest tl)
  · intro b hb
    have hs2 : (oldest :: tl).Pairwise
        (fun a b => a.createdAt ≤ b.createdAt) := by
      unfold agesSorted at hsort
      rwa [hcons] at hsort
    rw [hcons] at hb
    rcases List.mem_cons.mp hb with he | htl
    · exact he ▸ le_refl _
    · exact (List.pairwise_cons.mp hs2).1 b htl
  · rw [Cache.Set_data, mapInsert, mapErase_of_not_mem (hev ▸ hkerase), hev,
        List.map_append, keys_mapErase]
    rfl

/-- The store with bound 2 after inserting "a" then "b": a concrete state
at capacity, satisfying the reachable-state hypotheses. -/
def twoOfTwo : Cache Nat :=
  ((NewInMemoryCache [WithMaxEntries 2]).Set 0 "a" 7 100).Set 1 "b" 8 100

/-- C4 witness: inserting "c" into the full two-entry store. -/
theorem set_at_capacity_evicts_oldest_witness :
    (lockstep twoOfTwo ∧ agesSorted twoOfTwo ∧
      twoOfTwo.ageElements.contains "c" = false ∧ 0 < twoOfTwo.maxEntries ∧
      twoOfTwo.maxEntries ≤ (twoOfTwo.data.length : Int)) ∧
    ((∃ oldest, twoOfTwo.ageList.head? = some oldest ∧
        oldest.key ∈ twoOfTwo.data.map Prod.fst ∧
        (∀ b ∈ twoOfTwo.ageList, oldest.createdAt ≤ b.createdAt) ∧
        (twoOfTwo.Set 2 "c" 9 100).data.map Prod.fst =
          (twoOfTwo.data.map Prod.fst).filter (fun s => s != oldest.key) ++
            ["c"]) ∧
      (((((NewInMemoryCache [WithMaxEntries 2] : Cache Nat).Set 0 "a" 7
            100).Set 1 "b" 8 100).Set 2 "c" 9 100).data.map Prod.fst =
          ["b", "c"] ∧
        ((((((NewInMemoryCache [WithMaxEntries 2] : Cache Nat).Set 0 "a" 7
            100).Set 1 "b" 8 100).Set 2 "c" 9 100).Get 3 "a").1 = none) ∧
        ((((((NewInMemoryCache [WithMaxEntries 2] : Cache Nat).Set 0 "a" 7
            100).Set 1 "b" 8 100).Set 2 "c" 9 100).Get 3 "b").1 = some 8) ∧
        ((((((NewInMemoryCache [WithMaxEntries 2] : Cache Nat).Set 0 "a" 7
            100).Set 1 "b" 8 100).Set 2 "c" 9 100).Get 3 "c").1 = some 9))) :=
  ⟨⟨by decide, by decide, by decide, by decide, by decide⟩,
   set_at_capacity_evicts_oldest twoOfTwo 2 "c" 9 100 (by decide) (by decide)
     (by decide) (by decide) (by decide)⟩

/-- C10 witness: at the undocumented bound 0, a fresh-key Set grows the
store, and three distinct inserts all land. -/
theorem nonpositive_max_never_evicts_witness :
    ((NewInMemoryCache [WithMaxEntries 0] : Cache Nat).maxEntries ≤ 0 ∧
      "a" ∉ (NewInMemoryCache [WithMaxEntries 0] : Cache Nat).data.map Prod.fst) ∧
    ((NewInMemoryCache [WithMaxEntries 0] : Cache Nat).Set 3 "a" 7 5).data.length =
      (NewInMemoryCache [WithMaxEntries 0] : Cache Nat).data.length + 1 ∧
    (setMany (NewInMemoryCache [WithMaxEntries 0] : Cache Nat) 3
      ["a", "b", "c"] 7 5).data.length = 3 :=
  ⟨⟨by decide, by decide⟩,
   (nonpositive_max_never_evicts _ (by decide)).1 3 "a" 7 5 (by decide),
   by simpa using (nonpositive_max_never_evicts
       (NewInMemoryCache [WithMaxEntries 0] : Cache Nat) (by decide)).2.2 3 7 5
       ["a", "b", "c"] (by decide) (by decide)⟩

/-! ## Lemmas about the coordinator loops -/

deriving instance DecidableEq for Except

lemma Backend.Set_snd (b : Backend α ε) (now : Nat) (key : String) (value : α)
    (ttl : Nat) : (b.Set now key value ttl).2 = b.failSet := by
  cases h : b.failSet <;> simp [Backend.Set, h]

lemma Backend.Set_setCalls (b : Backend α ε) (now : Nat) (key : String)
    (value : α) (ttl : Nat) :
    ((b.Set now key value ttl).1).setCalls =
      b.setCalls ++ [(key, value, ttl)] := by
  cases h : b.failSet <;> simp [Backend.Set, h]

lemma Backend.Set_failGet (b : Backend α ε) (now : Nat) (key : String)
    (value : α) (ttl : Nat) :
    ((b.Set now key value ttl).1).failGet = b.failGet := by
  cases h : b.failSet <;> simp [Backend.Set, h]

lemma Backend.Set_store_of_ok {b : Backend α ε} (h : b.failSet = none)
    (now : Nat) (key : String) (value : α) (ttl : Nat) :
    ((b.Set now key value ttl).1).store = b.store.Set now key value ttl := by
  simp [Backend.Set, h]

lemma Backend.Delete_deleteCalls (b : Backend α ε) (key : String) :
    ((b.Delete key).1).deleteCalls = b.deleteCalls ++ [key] := by
  cases h : b.failDelete <;> simp [Backend.Delete, h]

lemma lastOpt_acc : ∀ (l : List γ) (x : γ),
    lastOpt l (some x) = (x :: l).getLast? := by
  intro l
  induction l with
  | nil => intro x; rfl
  | cons y t ih =>
    intro x
    show lastOpt t (some y) = (x :: y :: t).getLast?
    rw [ih y, List.getLast?_cons_cons]

lemma lastOpt_none_eq_getLast (l : List γ) : lastOpt l none = l.getLast? := by
  cases l with
  | nil => rfl
  | cons x t => exact lastOpt_acc t x

lemma getFrom_hit (now : Nat) (key : String) :
    ∀ (bs : List (CacheConfig α ε)) (i0 : Nat) (last : Option (Nat × ε))
      (i : Nat) (v : α), firstHit now key bs i0 = some (i, v) →
      (getFrom now key bs i0 last).1 = .ok (v, i) := by
  intro bs
  induction bs with
  | nil => intro i0 last i v h; simp [firstHit] at h
  | cons cfg rest ih =>
    intro i0 last i v h
    cases herr : (cfg.backend.Get now key).1.2 with
    | some e =>
      have hh : hitValue cfg now key = none := by simp [hitValue, herr]
      have h2 : firstHit now key rest (i0 + 1) = some (i, v) := by
        simpa [firstHit, hh] using h
      simp only [getFrom, herr]
      exact ih (i0 + 1) (some (i0, e)) i v h2
    | none =>
      cases hval : (cfg.backend.Get now key).1.1 with
      | some w =>
        have hh : hitValue cfg now key = some w := by
          simp [hitValue, herr, hval]
        have h2 : i0 = i ∧ w = v := by simpa [firstHit, hh] using h
        simp [getFrom, herr, hval, h2.1, h2.2]
      | none =>
        have hh : hitValue cfg now key = none := by
          simp [hitValue, herr, hval]
        have h2 : firstHit now key rest (i0 + 1) = some (i, v) := by
          simpa [firstHit, hh] using h
        simp only [getFrom, herr, hval]
        exact ih (i0 + 1) last i v h2

lemma getFrom_noHit (now : Nat) (key : String) :
    ∀ (bs : List (CacheConfig α ε)) (i0 : Nat) (last : Option (Nat × ε)),
      firstHit now key bs i0 = none →
      (getFrom now key bs i0 last).1 =
        match lastOpt (tierErrors now key bs i0) last with
        | some je => .error (.backendErr je.1 je.2)
        | none => .error (.notFound key) := by
  intro bs
  induction bs with
  | nil =>
    intro i0 last _
    rcases last with _ | ⟨j, e⟩ <;> rfl
  | cons cfg rest ih =>
    intro i0 last h
    cases herr : (cfg.backend.Get now key).1.2 with
    | some e =>
      have hh : hitValue cfg now key = none := by simp [hitValue, herr]
      have he : errValue cfg now key = some e := by simp [errValue, herr]
      have h2 : firstHit now key rest (i0 + 1) = none := by
        simpa [firstHit, hh] using h
      have ht : tierErrors now key (cfg :: rest) i0 =
          (i0, e) :: tierErrors now key rest (i0 + 1) := by
        simp [tierErrors, he]
      rw [ht]
      simp only [getFrom, herr]
      exact ih (i0 + 1) (some (i0, e)) h2
    | none =>
      cases hval : (cfg.backend.Get now key).1.1 with
      | some w =>
        have hh : hitValue cfg now key = some w := by
          simp [hitValue, herr, hval]
        simp [firstHit, hh] at h
      | none =>
        have hh : hitValue cfg now key = none := by
          simp [hitValue, herr, hval]
        have he : errValue cfg now key = none := by simp [errValue, herr]
        have h2 : firstHit now key rest (i0 + 1) = none := by
          simpa [firstHit, hh] using h
        have ht : tierErrors now key (cfg :: rest) i0 =
            tierErrors now key rest (i0 + 1) := by
          simp [tierErrors, he]
        rw [ht]
        simp only [getFrom, herr, hval]
        exact ih (i0 + 1) last h2

lemma setGo_fst (now : Nat) (key : String) (value : α) :
    ∀ (bs : List (CacheConfig α ε)) (i0 : Nat) (last : Option (Nat × ε))
      (j : Nat),
      ((setGo now key value bs i0 last).1)[j]? = (bs[j]?).map
        (fun cfg => { cfg with
          backend := (cfg.backend.Set now key value cfg.ttl).1 }) := by
  intro bs
  induction bs with
  | nil => intro i0 last j; simp [setGo]
  | cons cfg rest ih =>
    intro i0 last j
    cases j with
    | zero => simp [setGo]
    | succ j2 =>
      simp only [setGo, List.getElem?_cons_succ]
      exact ih (i0 + 1) _ j2

lemma setGo_snd (now : Nat) (key : String) (value : α) :
    ∀ (bs : List (CacheConfig α ε)) (i0 : Nat) (last : Option (Nat × ε)),
      (setGo now key value bs i0 last).2 =
        lastOpt (setFailures bs i0) last := by
  intro bs
  induction bs with
  | nil => intro i0 last; rfl
  | cons cfg rest ih =>
    intro i0 last
    cases hf : cfg.backend.failSet with
    | some e =>
      have hs : setFailures (cfg :: rest) i0 =
          (i0, e) :: setFailures rest (i0 + 1) := by simp [setFailures, hf]
      rw [hs]
      simp only [setGo, Backend.Set_snd, hf]
      exact ih (i0 + 1) (some (i0, e))
    | none =>
      have hs : setFailures (cfg :: rest) i0 = setFailures rest (i0 + 1) := by
        simp [setFailures, hf]
      rw [hs]
      simp only [setGo, Backend.Set_snd, hf]
      exact ih (i0 + 1) last

lemma deleteGo_fst (key : String) :
    ∀ (bs : List (CacheConfig α ε)) (i0 : Nat) (last : Option (Nat × ε))
      (j : Nat),
      ((deleteGo key bs i0 last).1)[j]? = (bs[j]?).map
        (fun cfg => { cfg with backend := (cfg.backend.Delete key).1 }) := by
  intro bs
  induction bs with
  | nil => intro i0 last j; simp [deleteGo]
  | cons cfg rest ih =>
    intro i0 last j
    cases j with
    | zero => simp [deleteGo]
    | succ j2 =>
      simp only [deleteGo, List.getElem?_cons_succ]
      exact ih (i0 + 1) _ j2

lemma Backend.Delete_snd (b : Backend α ε) (key : String) :
    (b.Delete key).2 = b.failDelete := by
  cases h : b.failDelete <;> simp [Backend.Delete, h]

lemma deleteGo_snd (key : String) :
    ∀ (bs : List (CacheConfig α ε)) (i0 : Nat) (last : Option (Nat × ε)),
      (deleteGo key bs i0 last).2 = lastOpt (deleteFailures bs i0) last := by
  intro bs
  induction bs with
  | nil => intro i0 last; rfl
  | cons cfg rest ih =>
    intro i0 last
    cases hf : cfg.backend.failDelete with
    | some e =>
      have hs : deleteFailures (cfg :: rest) i0 =
          (i0, e) :: deleteFailures rest (i0 + 1) := by
        simp [deleteFailures, hf]
      rw [hs]
      simp only [deleteGo, Backend.Delete_snd, hf]
      exact ih (i0 + 1) (some (i0, e))
    | none =>
      have hs : deleteFailures (cfg :: rest) i0 =
          deleteFailures rest (i0 + 1) := by simp [deleteFailures, hf]
      rw [hs]
      simp only [deleteGo, Backend.Delete_snd, hf]
      exact ih (i0 + 1) last

lemma populateGo_getElem (now : Nat) (key : String) (value : α)
    (hitIndex : Nat) :
    ∀ (bs : List (CacheConfig α ε)) (i0 j : Nat),
      (populateGo now key value hitIndex bs i0)[j]? = (bs[j]?).map
        (fun cfg => if i0 + j < hitIndex then
          { cfg with backend := (cfg.backend.Set now key value cfg.ttl).1 }
        else cfg) := by
  intro bs
  induction bs with
  | nil => intro i0 j; simp [populateGo]
  | cons cfg rest ih =>
    intro i0 j
    cases j with
    | zero => simp [populateGo]
    | succ j2 =>
      simp only [populateGo, List.getElem?_cons_succ]
      rw [ih (i0 + 1) j2]
      have harith : i0 + (j2 + 1) = (i0 + 1) + j2 := by omega
      rw [harith]

lemma fanoutGo_getElem (key : String) (src : Nat) :
    ∀ (bs : List (CacheConfig α ε)) (i0 j : Nat),
      (fanoutGo key src bs i0)[j]? = (bs[j]?).map
        (fun cfg => if i0 + j ≠ src then
          { cfg with backend := (cfg.backend.Delete key).1 }
        else cfg) := by
  intro bs
  induction bs with
  | nil => intro i0 j; simp [fanoutGo]
  | cons cfg rest ih =>
    intro i0 j
    cases j with
    | zero => simp [fanoutGo]
    | succ j2 =>
      simp only [fanoutGo, List.getElem?_cons_succ]
      rw [ih (i0 + 1) j2]
      have harith : i0 + (j2 + 1) = (i0 + 1) + j2 := by omega
      rw [harith]

lemma invFold_deleteCalls (src : Nat) :
    ∀ (events : List String) (bs : List (CacheConfig α ε)) (i : Nat),
      i ≠ src →
      ((events.foldl (fun bs2 k => fanoutGo k src bs2 0) bs)[i]?).map
        (fun cfg => cfg.backend.deleteCalls) =
      (bs[i]?).map (fun cfg => cfg.backend.deleteCalls ++ events) := by
  intro events
  induction events with
  | nil => intro bs i _; cases h : bs[i]? <;> simp [h]
  | cons k rest ih =>
    intro bs i hi
    show ((rest.foldl _ (fanoutGo k src bs 0))[i]?).map _ = _
    rw [ih (fanoutGo k src bs 0) i hi, fanoutGo_getElem k src bs 0 i]
    cases h : bs[i]? with
    | none => rfl
    | some cfg => simp [hi, Backend.Delete_deleteCalls]

lemma invFold_src (src : Nat) :
    ∀ (events : List String) (bs : List (CacheConfig α ε)),
      (events.foldl (fun bs2 k => fanoutGo k src bs2 0) bs)[src]? =
        bs[src]? := by
  intro events
  induction events with
  | nil => intro bs; rfl
  | cons k rest ih =>
    intro bs
    show (rest.foldl _ (fanoutGo k src bs 0))[src]? = _
    rw [ih (fanoutGo k src bs 0), fanoutGo_getElem k src bs 0 src]
    cases h : bs[src]? <;> simp

lemma getFrom_cons_hit {now : Nat} {key : String} {v : α}
    (cfg : CacheConfig α ε) (rest : List (CacheConfig α ε)) (i0 : Nat)
    (last : Option (Nat × ε)) (hget : cfg.backend.failGet = none)
    (hv : (cfg.backend.store.Get now key).1 = some v) :
    (getFrom now key (cfg :: rest) i0 last).1 = .ok (v, i0) := by
  simp only [getFrom, Backend.Get, hget, hv]

/-! ## The coordinator claims -/

/-- C2: coordinator Get tries tiers in position order; a tier error does
not stop iteration; the first hit returns its value with no error; with no
hit anywhere the result is an error, and if some tier erred the last
recorded tier error is surfaced instead of the generic not-found. -/
theorem tiered_get_first_hit_or_error (cm : CacheManager α ε) (now : Nat)
    (key : String) :
    (∀ i v, firstHit now key cm.backends 0 = some (i, v) →
        (cm.Get now key).1 = .ok (v, i)) ∧
    (firstHit now key cm.backends 0 = none →
        (tierErrors now key cm.backends 0 = [] →
            (cm.Get now key).1 = .error (.notFound key)) ∧
        (∀ j e, (tierErrors now key cm.backends 0).getLast? = some (j, e) →
            (cm.Get now key).1 = .error (.backendErr j e))) := by
  constructor
  · intro i v h
    exact getFrom_hit now key cm.backends 0 none i v h
  · intro hno
    have hbase : (cm.Get now key).1 =
        match lastOpt (tierErrors now key cm.backends 0) none with
        | some je => .error (.backendErr je.1 je.2)
        | none => .error (.notFound key) :=
      getFrom_noHit now key cm.backends 0 none hno
    constructor
    · intro hemp
      rw [hbase, hemp]
      rfl
    · intro j e hlast
      rw [hbase, lastOpt_none_eq_getLast, hlast]

/-- A backend whose Get always errs (a failing remote tier). -/
def errBackend : Backend Nat Nat :=
  { store := NewInMemoryCache [], failGet := some 5, failSet := none,
    failDelete := none, setCalls := [], deleteCalls := [] }

/-- A healthy backend holding "k" set at time 0 with ttl 100. -/
def hitBackend : Backend Nat Nat :=
  { store := (NewInMemoryCache []).Set 0 "k" 42 100, failGet := none,
    failSet := none, failDelete := none, setCalls := [], deleteCalls := [] }

/-- Two tiers: a failing one at position 0, a healthy one at position 1. -/
def cmTwoTier : CacheManager Nat Nat :=
  ⟨[⟨errBackend, 10⟩, ⟨hitBackend, 20⟩]⟩

/-- C2 witness: the hit at tier 1 is returned past the erring tier 0, and
a miss everywhere surfaces tier 0's error instead of not-found. -/
theorem tiered_get_first_hit_or_error_witness :
    (firstHit 5 "k" cmTwoTier.backends 0 = some (1, 42) ∧
      (cmTwoTier.Get 5 "k").1 = .ok (42, 1)) ∧
    (firstHit 5 "zz" cmTwoTier.backends 0 = none ∧
      (tierErrors 5 "zz" cmTwoTier.backends 0).getLast? = some (0, 5) ∧
      (cmTwoTier.Get 5 "zz").1 = .error (.backendErr 0 5)) :=
  ⟨⟨by decide,
    (tiered_get_first_hit_or_error cmTwoTier 5 "k").1 1 42 (by decide)⟩,
   ⟨by decide, by decide,
    ((tiered_get_first_hit_or_error cmTwoTier 5 "zz").2 (by decide)).2 0 5
      (by decide)⟩⟩

/-- C3: coordinator Set and Delete reach every tier (each tier's log gains
exactly the one invocation, with that tier's own ttl for Set) regardless
of failures elsewhere, and return the error of the last failing tier, nil
when none fails. -/
theorem set_delete_reach_all_tiers_last_error (cm : CacheManager α ε)
    (now : Nat) (key : String) (value : α) :
    (∀ j : Nat, (((cm.Set now key value).1.backends)[j]?).map
        (fun cfg => cfg.backend.setCalls) =
      ((cm.backends)[j]?).map
        (fun cfg => cfg.backend.setCalls ++ [(key, value, cfg.ttl)])) ∧
    (cm.Set now key value).2 = (setFailures cm.backends 0).getLast? ∧
    (∀ j : Nat, (((cm.Delete key).1.backends)[j]?).map
        (fun cfg => cfg.backend.deleteCalls) =
      ((cm.backends)[j]?).map
        (fun cfg => cfg.backend.deleteCalls ++ [key])) ∧
    (cm.Delete key).2 = (deleteFailures cm.backends 0).getLast? := by
  refine ⟨?_, ?_, ?_, ?_⟩
  · intro j
    have h : ((cm.Set now key value).1.backends)[j]? =
        ((cm.backends)[j]?).map (fun cfg => { cfg with
          backend := (cfg.backend.Set now key value cfg.ttl).1 }) :=
      setGo_fst now key value cm.backends 0 none j
    rw [h]
    cases hj : (cm.backends)[j]? with
    | none => rfl
    | some cfg => simp [Backend.Set_setCalls]
  · show (setGo now key value cm.backends 0 none).2 = _
    rw [setGo_snd, lastOpt_none_eq_getLast]
  · intro j
    have h : ((cm.Delete key).1.backends)[j]? =
        ((cm.backends)[j]?).map
          (fun cfg => { cfg with backend := (cfg.backend.Delete key).1 }) :=
      deleteGo_fst key cm.backends 0 none j
    rw [h]
    cases hj : (cm.backends)[j]? with
    | none => rfl
    | some cfg => simp [Backend.Delete_deleteCalls]
  · show (deleteGo key cm.backends 0 none).2 = _
    rw [deleteGo_snd, lastOpt_none_eq_getLast]

/-- C6: when Get reports a hit at tier i, the backfill writes the found
value with each tier's own configured ttl into exactly the tiers at
positions below i (their logs gain the one Set invocation) and leaves
every tier at position i or above completely untouched. -/
theorem backfill_exactly_previous_tiers (cm : CacheManager α ε)
    (tg now : Nat) (key : String) (v : α) (i : Nat)
    (_hhit : (cm.Get tg key).1 = .ok (v, i)) :
    (∀ j, j < i →
        ((cm.populatePreviousBackends now key v i).backends[j]?).map
          (fun cfg => cfg.backend.setCalls) =
        ((cm.backends)[j]?).map
          (fun cfg => cfg.backend.setCalls ++ [(key, v, cfg.ttl)])) ∧
    (∀ j, i ≤ j →
        (cm.populatePreviousBackends now key v i).backends[j]? =
          (cm.backends)[j]?) := by
  constructor
  · intro j hj
    have h := populateGo_getElem now key v i cm.backends 0 j
    rw [show (cm.populatePreviousBackends now key v i).backends =
        populateGo now key v i cm.backends 0 from rfl, h]
    cases hjv : (cm.backends)[j]? with
    | none => rfl
    | some cfg =>
      simp [hj, Backend.Set_setCalls]
  · intro j hj
    have h := populateGo_getElem now key v i cm.backends 0 j
    rw [show (cm.populatePreviousBackends now key v i).backends =
        populateGo now key v i cm.backends 0 from rfl, h]
    cases hjv : (cm.backends)[j]? with
    | none => rfl
    | some cfg =>
      have hcond : ¬ j < i := by omega
      simp [hcond]

/-- C6 witness: a hit at tier 1 of the two-tier manager backfills tier 0
with tier 0's own ttl and leaves tier 1 alone. -/
theorem backfill_exactly_previous_tiers_witness :
    (cmTwoTier.Get 5 "k").1 = .ok (42, 1) ∧
    ((0 : Nat) < 1 ∧
      ((cmTwoTier.populatePreviousBackends 6 "k" 42 1).backends[0]?).map
        (fun cfg => cfg.backend.setCalls) =
      ((cmTwoTier.backends)[0]?).map
        (fun cfg => cfg.backend.setCalls ++ [("k", 42, cfg.ttl)])) ∧
    ((1 : Nat) ≤ 1 ∧
      (cmTwoTier.populatePreviousBackends 6 "k" 42 1).backends[1]? =
        (cmTwoTier.backends)[1]?) :=
  ⟨by decide,
   ⟨by decide,
    (backfill_exactly_previous_tiers cmTwoTier 5 6 "k" 42 1 (by decide)).1 0
      (by decide)⟩,
   ⟨by decide,
    (backfill_exactly_previous_tiers cmTwoTier 5 6 "k" 42 1 (by decide)).2 1
      (by decide)⟩⟩

/-- C7: processing the invalidation feed of tier src, every received key
is deleted from every tier other than src, in order, regardless of delete
failures, and no delete is ever issued against tier src itself. -/
theorem invalidation_deletes_only_other_tiers (cm : CacheManager α ε)
    (events : List String) (src : Nat) :
    (∀ i, i ≠ src →
        ((cm.handleInvalidation events src).backends[i]?).map
          (fun cfg => cfg.backend.deleteCalls) =
        ((cm.backends)[i]?).map
          (fun cfg => cfg.backend.deleteCalls ++ events)) ∧
    (cm.handleInvalidation events src).backends[src]? =
      (cm.backends)[src]? := by
  constructor
  · intro i hi
    exact invFold_deleteCalls src events cm.backends i hi
  · exact invFold_src src events cm.backends

/-- C7 witness: two events from tier 1 delete both keys from tier 0 only. -/
theorem invalidation_deletes_only_other_tiers_witness :
    ((0 : Nat) ≠ 1 ∧
      ((cmTwoTier.handleInvalidation ["k1", "k2"] 1).backends[0]?).map
        (fun cfg => cfg.backend.deleteCalls) =
      ((cmTwoTier.backends)[0]?).map
        (fun cfg => cfg.backend.deleteCalls ++ ["k1", "k2"])) ∧
    (cmTwoTier.handleInvalidation ["k1", "k2"] 1).backends[1]? =
      (cmTwoTier.backends)[1]? :=
  ⟨⟨by decide,
    (invalidation_deletes_only_other_tiers cmTwoTier ["k1", "k2"] 1).1 0
      (by decide)⟩,
   (invalidation_deletes_only_other_tiers cmTwoTier ["k1", "k2"] 1).2⟩

/-- C8: a coordinator Set followed by a Get served by a healthy fastest
tier within that tier's ttl returns the value from position 0. -/
theorem set_then_get_hits_fastest_tier (cfg0 : CacheConfig α ε)
    (rest : List (CacheConfig α ε)) (t0 tr : Nat) (key : String) (v : α)
    (hset : cfg0.backend.failSet = none) (hget : cfg0.backend.failGet = none)
    (httl : tr ≤ t0 + cfg0.ttl) :
    (((CacheManager.mk (cfg0 :: rest)).Set t0 key v).1.Get tr key).1 =
      .ok (v, 0) := by
  have hb : ((cfg0.backend.Set t0 key v cfg0.ttl).1).failGet = none := by
    rw [Backend.Set_failGet]
    exact hget
  have hval : (((cfg0.backend.Set t0 key v cfg0.ttl).1).store.Get tr
      key).1 = some v := by
    rw [Backend.Set_store_of_ok hset, Cache.Get_after_Set_fst,
        if_neg (by omega)]
  have hcons2 : (setGo t0 key v (cfg0 :: rest) 0 none).1 =
      { cfg0 with backend := (cfg0.backend.Set t0 key v cfg0.ttl).1 } ::
        (setGo t0 key v rest 1
          (match (cfg0.backend.Set t0 key v cfg0.ttl).2 with
           | some e => some (0, e)
           | none => none)).1 := rfl
  show (getFrom tr key (setGo t0 key v (cfg0 :: rest) 0 none).1 0 none).1 =
    .ok (v, 0)
  rw [hcons2]
  exact getFrom_cons_hit _ _ 0 none hb hval

/-- A healthy empty backend for the fastest tier. -/
def freshBackend : Backend Nat Nat :=
  { store := NewInMemoryCache [], failGet := none, failSet := none,
    failDelete := none, setCalls := [], deleteCalls := [] }

/-- C8 witness: one healthy tier with ttl 10; set at 0, read at 5. -/
theorem set_then_get_hits_fastest_tier_witness :
    ((CacheConfig.mk freshBackend 10).backend.failSet = none ∧
      (CacheConfig.mk freshBackend 10).backend.failGet = none ∧
      (5 : Nat) ≤ 0 + (CacheConfig.mk freshBackend 10).ttl) ∧
    (((CacheManager.mk [CacheConfig.mk freshBackend 10] :
        CacheManager Nat Nat).Set 0 "x" 3).1.Get 5 "x").1 = .ok (3, 0) :=
  ⟨⟨rfl, rfl, by decide⟩,
   set_then_get_hits_fastest_tier (CacheConfig.mk freshBackend 10) [] 0 5
     "x" 3 rfl rfl (by decide)⟩

end CacheMgr
